import Mathlib

/-!
Verification development for the clemmys layout engine.

The definitions below are a shallow embedding of the Python sources
(`glyph.py`, `logo.py`, `links.py`, `secondary_structure.py`, `colors.py`):
real-valued quantities are modelled over `ℚ`, Python dictionaries over
association lists, fallible operations over `Option`, and the matplotlib
patch objects over plain descriptor structures carrying the geometric and
style parameters the source passes to them (the font/outline collaborator
and the rendering backend are external to the layout logic).
-/

set_option linter.unusedSectionVars false

/-! ### Glyph builder (`glyph.py`) -/

/-- `Glyph` dataclass of `glyph.py`.  The `color` field holds the result of
the color-scheme lookup performed at the construction site (`none` models a
raised `KeyError`). -/
structure Glyph where
  character : Char
  x : ℚ
  y0 : ℚ
  y1 : ℚ
  width : ℚ := 95 / 100
  pad : ℚ := 1 / 10
  font_name : String := "sans"
  font_weight : String := "normal"
  color : Option String := some "gray"
  edgecolor : String := "black"
  edgewidth : ℚ := 0
  dont_stretch_more_than : Char := 'E'
  zorder : Option ℤ := none
  opacity : ℚ := 1
  deriving DecidableEq, Repr

/-- Descriptor for the `PathPatch` produced by `Glyph.make_patch`: the target
character bounding box computed from the glyph fields (lines 35–42 of
`glyph.py`) together with the style parameters passed to the patch.  The
font-dependent outline stretching is performed by the external font
collaborator and is not part of the layout data. -/
structure GlyphPatch where
  character : Char
  char_xmin : ℚ
  char_ymin : ℚ
  char_width : ℚ
  char_height : ℚ
  facecolor : Option String
  edgecolor : String
  linewidth : ℚ
  opacity : ℚ
  zorder : Option ℤ
  deriving DecidableEq, Repr

/-- `Glyph.make_patch` (`glyph.py` lines 27–101): returns `none` when the
glyph height `y1 - y0` is zero, otherwise the patch descriptor. -/
def Glyph.make_patch (g : Glyph) : Option GlyphPatch :=
  let height := g.y1 - g.y0
  if height = 0 then none
  else
    some { character := g.character
           char_xmin := g.x - g.width / 2
           char_ymin := g.y0 + g.pad * height / 2
           char_width := g.width
           char_height := height - g.pad * height
           facecolor := g.color
           edgecolor := g.edgecolor
           linewidth := g.edgewidth
           opacity := g.opacity
           zorder := g.zorder }

/-- Vertical span `(y0, y1)` of a glyph. -/
def Glyph.span (g : Glyph) : ℚ × ℚ := (g.y0, g.y1)

/-! ### Counter model (`collections.Counter`)

A counter is an association list in first-encounter order; `most_common`
is the stable sort by descending count that CPython's
`sorted(items, key=count, reverse=True)` performs. -/

/-- Add one occurrence of `a` to a counter association list, preserving
first-encounter order (the behaviour of `Counter` updates). -/
def bump [DecidableEq α] (a : α) : List (α × ℕ) → List (α × ℕ)
  | [] => [(a, 1)]
  | (b, n) :: rest => if a = b then (b, n + 1) :: rest else (b, n) :: bump a rest

/-- Build a `Counter` from a list of symbols (`Counter(list)`). -/
def countElems [DecidableEq α] (l : List α) : List (α × ℕ) :=
  l.foldl (fun acc a => bump a acc) []

/-- Insert an entry into a descending-count sorted list, before the first
entry of equal or smaller count (stable descending insertion). -/
def insertByCount (p : α × ℕ) : List (α × ℕ) → List (α × ℕ)
  | [] => [p]
  | q :: rest => if q.2 ≤ p.2 then p :: q :: rest else q :: insertByCount p rest

/-- `Counter.most_common()`: entries sorted by descending count; ties keep
their first-encounter order (CPython's stable reverse sort). -/
def most_common (cnt : List (α × ℕ)) : List (α × ℕ) :=
  cnt.foldr insertByCount []

/-! ### Sequence logo (`logo.py`, `SequenceLogo`) -/

/-- Normalisation applied to each alignment character:
`.upper().replace('-', gap_character)` (`logo.py` line 56). -/
def normSym (gap : Char) (c : Char) : Char :=
  let u := c.toUpper
  if u = '-' then gap else u

/-- State of a constructed `SequenceLogo` (the fields stored by
`SequenceLogo.__init__` after resolving the optional arguments). -/
structure SequenceLogo where
  alignment : List (String × List Char)
  keys : List String
  positions : List ℕ
  color_scheme : List (Char × String)
  gap_character : Char
  space_between_glyphs : ℚ
  glyph_width : ℚ

/-- Key resolution of `SequenceLogo.__init__` (lines 37–40): `None` means
all alignment keys; an explicit list is stored unchanged. -/
def SequenceLogo.resolve_keys (alignment : List (String × List Char)) :
    Option (List String) → List String
  | none => alignment.map Prod.fst
  | some ks => ks

/-- `SequenceLogo.__init__`: resolve keys and positions, store the
configuration.  `alignment_length` is the length of the first resolved
key's sequence (line 41). -/
def mkSequenceLogo (alignment : List (String × List Char))
    (positions : Option (List ℕ)) (keys : Option (List String))
    (color_scheme : List (Char × String)) (gap_character : Char)
    (space_between_glyphs glyph_width : ℚ) : SequenceLogo :=
  let ks := SequenceLogo.resolve_keys alignment keys
  let alignment_length := ((alignment.lookup (ks.headD "")).getD []).length
  { alignment := alignment
    keys := ks
    positions :=
      match positions with
      | none => List.range alignment_length
      | some ps => ps
    color_scheme := color_scheme
    gap_character := gap_character
    space_between_glyphs := space_between_glyphs
    glyph_width := glyph_width }

/-- `self.num_keys = len(self.keys)` (line 42). -/
def SequenceLogo.num_keys (L : SequenceLogo) : ℕ := L.keys.length

/-- Character of key `k` at position `p`: `self.alignment[key][p]`. -/
def SequenceLogo.symbolAt (L : SequenceLogo) (k : String) (p : ℕ) : Char :=
  ((L.alignment.lookup k).getD []).getD p '?'

/-- `SequenceLogo.get_counters` (lines 53–57): one counter per position over
the normalised symbols of every key. -/
def SequenceLogo.get_counters (L : SequenceLogo) : List (List (Char × ℕ)) :=
  L.positions.map fun p =>
    countElems (L.keys.map fun k => normSym L.gap_character (L.symbolAt k p))

/-- Inner loop of `SequenceLogo.make_patches` (lines 69–74): per counter
entry, `y0 = y1 - n / num_keys` and a glyph spanning `[y0, y1]`.  Note the
source never reassigns `y1` inside the loop (there is no `y1 = y0` between
lines 70 and 74), so `y1` keeps the value set once per column at line 69
and every glyph of a column has the same top. -/
def stack_column (scheme : List (Char × String)) (K : ℕ) (x w : ℚ) :
    ℚ → List (Char × ℕ) → List Glyph
  | _, [] => []
  | y1, (c, n) :: rest =>
    let y0 := y1 - (n : ℚ) / (K : ℚ)
    { character := c, x := x, y0 := y0, y1 := y1, width := w,
      color := scheme.lookup c } :: stack_column scheme K x w y1 rest

/-- The glyph list of one logo column: column index `x`, glyphs stacked from
`y1 = 1` through the counter's `most_common` order. -/
def SequenceLogo.column_glyphs (L : SequenceLogo) (x : ℕ)
    (cnt : List (Char × ℕ)) : List Glyph :=
  stack_column L.color_scheme L.num_keys (L.space_between_glyphs * (x : ℚ))
    L.glyph_width 1 (most_common cnt)

/-- The per-column glyph lists of `SequenceLogo.make_patches`. -/
def SequenceLogo.column_glyph_lists (L : SequenceLogo) : List (List Glyph) :=
  L.get_counters.enum.map fun p => L.column_glyphs p.1 p.2

/-- `SequenceLogo.make_patches` (lines 59–75): every column glyph is turned
into a patch via `Glyph.make_patch` and the columns are concatenated. -/
def SequenceLogo.make_patches (L : SequenceLogo) : List (Option GlyphPatch) :=
  (L.column_glyph_lists.map fun gs => gs.map Glyph.make_patch).flatten

/-! ### Co-evolution logo (`logo.py`, `CoevolutionLogo`) -/

/-- State of a constructed `CoevolutionLogo`. -/
structure CoevolutionLogo where
  alignment : List (String × List Char)
  keys : List String
  coevolving_positions : List (ℕ × ℕ)
  color_scheme : List (Char × String)
  gap_character : Char
  space_between_glyphs : ℚ
  glyph_width : ℚ

/-- Key resolution of `CoevolutionLogo.__init__` (lines 118–121): an
explicit list is intersected with the alignment's keys. -/
def CoevolutionLogo.resolve_keys (alignment : List (String × List Char)) :
    Option (List String) → List String
  | none => alignment.map Prod.fst
  | some ks => ks.filter fun k => (alignment.lookup k).isSome

/-- `CoevolutionLogo.__init__`. -/
def mkCoevolutionLogo (alignment : List (String × List Char))
    (coevolving_positions : List (ℕ × ℕ)) (keys : Option (List String))
    (color_scheme : List (Char × String)) (gap_character : Char)
    (space_between_glyphs glyph_width : ℚ) : CoevolutionLogo :=
  { alignment := alignment
    keys := CoevolutionLogo.resolve_keys alignment keys
    coevolving_positions := coevolving_positions
    color_scheme := color_scheme
    gap_character := gap_character
    space_between_glyphs := space_between_glyphs
    glyph_width := glyph_width }

/-- `self.num_keys = len(self.keys)` (line 123). -/
def CoevolutionLogo.num_keys (M : CoevolutionLogo) : ℕ := M.keys.length

/-- Character of key `k` at position `p`. -/
def CoevolutionLogo.symbolAt (M : CoevolutionLogo) (k : String) (p : ℕ) : Char :=
  ((M.alignment.lookup k).getD []).getD p '?'

/-- `CoevolutionLogo.get_counters` (lines 131–136): a counter of normalised
symbol pairs per coevolving position pair (the two-character Python string
is modelled as a pair; `.upper().replace` acts character-wise). -/
def CoevolutionLogo.get_counters (M : CoevolutionLogo) :
    List (List ((Char × Char) × ℕ)) :=
  M.coevolving_positions.map fun p =>
    countElems (M.keys.map fun k =>
      (normSym M.gap_character (M.symbolAt k p.1),
       normSym M.gap_character (M.symbolAt k p.2)))

/-- Inner loop of `CoevolutionLogo.make_patches` (lines 148–156): per counter
entry two glyphs sharing the span `[y1 - n / num_keys, y1]`, at x-positions
`2 * spacing * x` and `2 * spacing * x + 1`.  As in the sequence-logo loop,
the source never reassigns `y1` inside the loop, so every pair of a column
keeps the top set once at line 148. -/
def stack_column_pairs (scheme : List (Char × String)) (K : ℕ)
    (spacing w : ℚ) (x : ℕ) : ℚ → List ((Char × Char) × ℕ) → List (Glyph × Glyph)
  | _, [] => []
  | y1, (c, n) :: rest =>
    let y0 := y1 - (n : ℚ) / (K : ℚ)
    ({ character := c.1, x := 2 * spacing * (x : ℚ), y0 := y0, y1 := y1,
       width := w, color := scheme.lookup c.1 },
     { character := c.2, x := 2 * spacing * (x : ℚ) + 1, y0 := y0, y1 := y1,
       width := w, color := scheme.lookup c.2 })
      :: stack_column_pairs scheme K spacing w x y1 rest

/-- The glyph pair list of one co-evolution column. -/
def CoevolutionLogo.column_glyph_pairs (M : CoevolutionLogo) (x : ℕ)
    (cnt : List ((Char × Char) × ℕ)) : List (Glyph × Glyph) :=
  stack_column_pairs M.color_scheme M.num_keys M.space_between_glyphs
    M.glyph_width x 1 (most_common cnt)

/-- The per-pair-column glyph pair lists of `CoevolutionLogo.make_patches`. -/
def CoevolutionLogo.column_glyph_pair_lists (M : CoevolutionLogo) :
    List (List (Glyph × Glyph)) :=
  M.get_counters.enum.map fun p => M.column_glyph_pairs p.1 p.2

/-- `CoevolutionLogo.make_patches` (lines 138–157): per counter entry the
first glyph's patch is appended, then the second glyph's. -/
def CoevolutionLogo.make_patches (M : CoevolutionLogo) :
    List (Option GlyphPatch) :=
  (M.column_glyph_pair_lists.map fun ps =>
    (ps.flatMap fun pr => [pr.1, pr.2]).map Glyph.make_patch).flatten

/-! ### Link builder (`links.py`) -/

/-- Shape descriptors produced by the link builders: the `Arc` patch of
`make_semicircle` and the quadratic Bézier `FancyArrowPatch` of
`make_curve`, with the geometric and style parameters the source passes. -/
inductive LinkPatch where
  | arc (center : ℚ × ℚ) (w h : ℚ) (angle theta1 theta2 : ℚ)
      (lw : ℚ) (color : String) (alpha : ℚ)
  | bezier (p0 p1 p2 : ℚ × ℚ) (lw : ℚ) (color : String) (alpha : ℚ)
  deriving DecidableEq, Repr

/-- `make_semicircle` (`links.py` lines 6–34): exact midpoint `(x1+x2)/2`,
height `2*|x1 - middle|`, degenerate `(0, none)` when the height is zero. -/
def make_semicircle (x1 x2 y : ℚ) (valley : Bool) (color : String)
    (opacity : ℚ := 1) (linewidth : ℚ := 1) : ℚ × Option LinkPatch :=
  let middle := (x1 + x2) / 2
  let height := 2 * |x1 - middle|
  if height = 0 then (0, none)
  else if valley then
    (-height, some (.arc (middle, y) (-height) (-height) (-180) 180 360
      linewidth color opacity))
  else
    (height, some (.arc (middle, y) height height 0 0 180
      linewidth color opacity))

/-- `make_curve` (`links.py` lines 149–181): integer-truncating midpoint
`(x1 + x2) // 2` (Python float floor division), height `2*|x1 - middle|`,
no degenerate branch. -/
def make_curve (x1 x2 y : ℚ) (valley : Bool) (color : String)
    (opacity : ℚ := 1) (linewidth : ℚ := 1) : ℚ × LinkPatch :=
  let middle : ℚ := (⌊(x1 + x2) / 2⌋ : ℤ)
  let height := 2 * |x1 - middle|
  if valley then
    (-height, .bezier (x1, y) (middle, y - height) (x2, y)
      linewidth color opacity)
  else
    (height, .bezier (x1, y) (middle, y + height) (x2, y)
      linewidth color opacity)

/-! ### Theorems for claims C9, C10, C2, C5 -/

/-- C9: `Glyph.make_patch` returns no shape exactly when the glyph height
`y1 - y0` is zero (in particular for `y0 = y1 = 0.5`), and returns a shape
descriptor for every nonzero height; the degenerate result is the value
`none`, not an error. -/
theorem c9_glyph_degenerate (g : Glyph) :
    (g.make_patch = none ↔ g.y1 - g.y0 = 0) ∧
    (g.make_patch ≠ none ↔ g.y1 - g.y0 ≠ 0) := by
  by_cases h : g.y1 - g.y0 = 0 <;> simp [Glyph.make_patch, h]

/-- Helper: full behaviour of `make_semicircle` on its two branches. -/
lemma make_semicircle_extent_spec (x1 x2 y : ℚ) (valley : Bool) (color : String)
    (op lw : ℚ) :
    (x1 ≠ x2 →
      (make_semicircle x1 x2 y valley color op lw).1
          = (if valley then -|x2 - x1| else |x2 - x1|) ∧
      ((make_semicircle x1 x2 y valley color op lw).2).isSome) ∧
    (x1 = x2 → make_semicircle x1 x2 y valley color op lw = (0, none)) := by
  have hkey : 2 * |x1 - (x1 + x2) / 2| = |x2 - x1| := by
    have h1 : x1 - (x1 + x2) / 2 = (x1 - x2) / 2 := by ring
    have h2 : |(2 : ℚ)| = 2 := by norm_num
    rw [h1, abs_div, h2, abs_sub_comm x1 x2]
    ring
  constructor
  · intro hne
    have hne' : |x2 - x1| ≠ 0 := by
      simpa [sub_eq_zero] using hne.symm
    rw [make_semicircle, hkey, if_neg hne']
    cases valley <;> simp
  · intro heq
    subst heq
    rw [make_semicircle, hkey]
    simp

/-- C10: for `x1 ≠ x2` the extent of `make_semicircle` is `-|x2 - x1|` when
`valley` is true and `|x2 - x1|` otherwise, and a shape is produced; for
`x1 = x2` the result is extent `0` with no shape. -/
theorem c10_semicircle_extent (x1 x2 y : ℚ) (valley : Bool) (color : String)
    (op lw : ℚ) :
    (x1 ≠ x2 →
      (make_semicircle x1 x2 y valley color op lw).1
          = (if valley then -|x2 - x1| else |x2 - x1|) ∧
      ((make_semicircle x1 x2 y valley color op lw).2).isSome) ∧
    (x1 = x2 → make_semicircle x1 x2 y valley color op lw = (0, none)) :=
  make_semicircle_extent_spec x1 x2 y valley color op lw

/-- C10 witness: concrete instances of both branches. -/
theorem c10_semicircle_extent_witness :
    ((make_semicircle 0 2 0 true "black" 1 1).1 = -|(2 : ℚ) - 0| ∧
      ((make_semicircle 0 2 0 true "black" 1 1).2).isSome) ∧
    make_semicircle 3 3 0 false "black" 1 1 = (0, none) := by
  constructor
  · have h := (c10_semicircle_extent 0 2 0 true "black" 1 1).1 (by norm_num)
    simpa using h
  · exact (c10_semicircle_extent 3 3 0 false "black" 1 1).2 rfl

/-- C2 counterexample: `SequenceLogo.__init__` does not intersect an
explicit keys list with the alignment's keys — for alignment `{"a": "A"}`
and keys `["a", "b"]` the resolved key list is `["a", "b"]`, not the
intersection `["a"]`. -/
theorem c2_counterexample :
    (mkSequenceLogo [("a", ['A'])] none (some ["a", "b"]) [] 'X' 1 1).keys
        = ["a", "b"] ∧
    (["a", "b"].filter fun k =>
        (([("a", (['A'] : List Char))].lookup k).isSome)) = ["a"] ∧
    (["a", "b"] : List String) ≠ ["a"] := by
  exact ⟨rfl, rfl, by decide⟩

/-- C2 amended: only the `CoevolutionLogo` constructor intersects an
explicit keys list with the alignment's keys (in the given order); the
`SequenceLogo` constructor stores the explicit list unchanged; with no
explicit list both use all alignment keys. -/
theorem c2_amended_key_resolution :
    (∀ (alignment : List (String × List Char)) (ps : Option (List ℕ))
        (sch : List (Char × String)) (gap : Char) (sp w : ℚ),
      (mkSequenceLogo alignment ps none sch gap sp w).keys
          = alignment.map Prod.fst) ∧
    (∀ (alignment : List (String × List Char)) (ps : Option (List ℕ))
        (ks : List String) (sch : List (Char × String)) (gap : Char) (sp w : ℚ),
      (mkSequenceLogo alignment ps (some ks) sch gap sp w).keys = ks) ∧
    (∀ (alignment : List (String × List Char)) (cps : List (ℕ × ℕ))
        (sch : List (Char × String)) (gap : Char) (sp w : ℚ),
      (mkCoevolutionLogo alignment cps none sch gap sp w).keys
          = alignment.map Prod.fst) ∧
    (∀ (alignment : List (String × List Char)) (cps : List (ℕ × ℕ))
        (ks : List String) (sch : List (Char × String)) (gap : Char) (sp w : ℚ),
      (mkCoevolutionLogo alignment cps (some ks) sch gap sp w).keys
          = ks.filter fun k => (alignment.lookup k).isSome) := by
  exact ⟨fun _ _ _ _ _ _ => rfl, fun _ _ _ _ _ _ _ => rfl,
    fun _ _ _ _ _ _ => rfl, fun _ _ _ _ _ _ _ => rfl⟩

/-- C5 counterexample: the claim fails for `x1 = 1/4`, `x2 = 3/4`: the exact
midpoint `1/2` is fractional, yet `make_curve` and `make_semicircle` return
the same extent `1/2`. -/
theorem c5_counterexample :
    (make_curve (1/4) (3/4) 0 false "black" 1 1).1
        = (make_semicircle (1/4) (3/4) 0 false "black" 1 1).1 ∧
    ¬ ∃ z : ℤ, ((1/4 : ℚ) + 3/4) / 2 = (z : ℚ) := by
  constructor
  · have hfloor : (⌊((1/4 : ℚ) + 3/4) / 2⌋ : ℤ) = 0 := by norm_num
    rw [make_curve, make_semicircle, hfloor]
    norm_num
  · rintro ⟨z, hz⟩
    have h1 : (z : ℚ) = 1/2 := by rw [← hz]; norm_num
    have h2 : (2 : ℚ) * z = 1 := by rw [h1]; ring
    have h3 : (2 : ℤ) * z = 1 := by exact_mod_cast h2
    omega

/-- C5 amended: `make_curve` truncates its midpoint with floor division
while `make_semicircle` divides exactly; for integer endpoints with odd sum
(a fractional exact midpoint) the two extents always differ.  (The
difference does not extend to all fractional midpoints: see the
counterexample `x1 = 1/4`, `x2 = 3/4`.) -/
theorem c5_amended_curve_vs_semicircle (a b : ℤ) (y : ℚ) (valley : Bool)
    (color : String) (op lw : ℚ) (h : Odd (a + b)) :
    (make_curve (a : ℚ) (b : ℚ) y valley color op lw).1
      ≠ (make_semicircle (a : ℚ) (b : ℚ) y valley color op lw).1 := by
  obtain ⟨k, hk⟩ := h
  have hfloor : ⌊((a : ℚ) + (b : ℚ)) / 2⌋ = k := by
    have h1 : ((a : ℚ) + (b : ℚ)) / 2 = (1 / 2 : ℚ) + (k : ℤ) := by
      have : ((a : ℚ) + (b : ℚ)) = ((2 * k + 1 : ℤ) : ℚ) := by
        push_cast [← hk]; ring
      rw [this]; push_cast; ring
    rw [h1, Int.floor_add_int]
    norm_num
  have hab : a ≠ b := by
    intro hab
    omega
  have hcurve : (make_curve (a : ℚ) (b : ℚ) y valley color op lw).1
      = (if valley then -(2 * |(a : ℚ) - (k : ℚ)|) else 2 * |(a : ℚ) - (k : ℚ)|) := by
    rw [make_curve, hfloor]
    cases valley <;> simp
  have hsemi : (make_semicircle (a : ℚ) (b : ℚ) y valley color op lw).1
      = (if valley then -|(b : ℚ) - (a : ℚ)| else |(b : ℚ) - (a : ℚ)|) := by
    have := (make_semicircle_extent_spec (a : ℚ) (b : ℚ) y valley color op lw).1
      (by exact_mod_cast hab)
    exact this.1
  rw [hcurve, hsemi]
  have key : (2 * |a - k| : ℤ) ≠ |b - a| := by
    intro hEq
    have habs : |(2 * (a - k) : ℤ)| = 2 * |a - k| := by
      rw [abs_mul]; norm_num
    rw [← habs] at hEq
    rcases abs_eq_abs.mp hEq with h1 | h1 <;> omega
  have key' : 2 * |(a : ℚ) - (k : ℚ)| ≠ |(b : ℚ) - (a : ℚ)| := by
    intro hEq
    apply key
    exact_mod_cast hEq
  cases valley <;> simp [key', key'.symm]

/-- C5 amended witness: at `x1 = 0`, `x2 = 1` (odd integer sum) the two
extents differ. -/
theorem c5_amended_witness :
    (make_curve ((0 : ℤ) : ℚ) ((1 : ℤ) : ℚ) 0 false "black" 1 1).1
      ≠ (make_semicircle ((0 : ℤ) : ℚ) ((1 : ℤ) : ℚ) 0 false "black" 1 1).1 :=
  c5_amended_curve_vs_semicircle 0 1 0 false "black" 1 1 ⟨0, by norm_num⟩

/-- C9 witness: the degenerate case named by the claim, `y0 = y1 = 0.5`. -/
theorem c9_glyph_degenerate_witness :
    (({ character := 'A', x := 0, y0 := 1/2, y1 := 1/2 : Glyph }).make_patch
        = none ↔ (1/2 : ℚ) - 1/2 = 0) ∧
    (({ character := 'A', x := 0, y0 := 1/2, y1 := 1/2 : Glyph }).make_patch
        ≠ none ↔ (1/2 : ℚ) - 1/2 ≠ 0) :=
  c9_glyph_degenerate { character := 'A', x := 0, y0 := 1/2, y1 := 1/2 }

/-! ### Counter and stacking lemmas (claims C7, C1, C8) -/

lemma bump_sum [DecidableEq α] (a : α) (acc : List (α × ℕ)) :
    ((bump a acc).map Prod.snd).sum = (acc.map Prod.snd).sum + 1 := by
  induction acc with
  | nil => simp [bump]
  | cons q rest ih =>
    obtain ⟨b, n⟩ := q
    by_cases h : a = b
    · simp [bump, h]
      omega
    · simp [bump, h, ih]
      omega

lemma countElems_foldl_sum [DecidableEq α] (l : List α) :
    ∀ acc : List (α × ℕ),
      ((l.foldl (fun acc a => bump a acc) acc).map Prod.snd).sum
        = (acc.map Prod.snd).sum + l.length := by
  induction l with
  | nil => intro acc; simp
  | cons a rest ih =>
    intro acc
    rw [List.foldl_cons, ih, bump_sum, List.length_cons]
    omega

/-- The counts of a counter sum to the length of the list it was built
from: one occurrence per element. -/
lemma countElems_sum [DecidableEq α] (l : List α) :
    ((countElems l).map Prod.snd).sum = l.length := by
  simpa [countElems] using countElems_foldl_sum l []

/-- A span list exactly tiles `[0, 1]` vertically: the first span's top is
`1`, each following span's top is the previous span's bottom, and the last
span's bottom is `0`. -/
def TilesUnit (spans : List (ℚ × ℚ)) : Prop :=
  spans.head?.map Prod.snd = some 1 ∧
  spans.getLast?.map Prod.fst = some 0 ∧
  List.Chain' (fun a b => b.2 = a.1) spans

lemma snd_mem_enumFrom {β : Type} :
    ∀ (l : List β) (n : ℕ) (p : ℕ × β), p ∈ l.enumFrom n → p.2 ∈ l := by
  intro l
  induction l with
  | nil => intro n p h; simp [List.enumFrom] at h
  | cons a t ih =>
    intro n p h
    rw [List.enumFrom_cons] at h
    rcases List.mem_cons.mp h with h | h
    · rw [h]
      exact List.mem_cons_self a t
    · exact List.mem_cons_of_mem a (ih _ p h)

lemma snd_mem_enum {β : Type} (l : List β) (p : ℕ × β) (h : p ∈ l.enum) :
    p.2 ∈ l :=
  snd_mem_enumFrom l 0 p h

/-- C7: every counter built by `get_counters` — per position for
`SequenceLogo`, per position pair for `CoevolutionLogo` — has counts
summing to the number of resolved keys: each key contributes exactly one
(gap-substituted) symbol per position. -/
theorem c7_counter_sums :
    (∀ (L : SequenceLogo), ∀ cnt ∈ L.get_counters,
      (cnt.map Prod.snd).sum = L.num_keys) ∧
    (∀ (M : CoevolutionLogo), ∀ cnt ∈ M.get_counters,
      (cnt.map Prod.snd).sum = M.num_keys) := by
  constructor
  · intro L cnt hcnt
    obtain ⟨p, _, rfl⟩ := List.mem_map.mp hcnt
    rw [countElems_sum, List.length_map]
    rfl
  · intro M cnt hcnt
    obtain ⟨p, _, rfl⟩ := List.mem_map.mp hcnt
    rw [countElems_sum, List.length_map]
    rfl

/-- C7 witness: a two-key alignment at one position, and a coevolution pair
column over the same alignment. -/
theorem c7_counter_sums_witness :
    ((([('A', 2)] : List (Char × ℕ)).map Prod.snd).sum
        = (mkSequenceLogo [("a", ['A', 'C']), ("b", ['A', 'G'])]
            (some [0]) none [] 'X' 1 1).num_keys) ∧
    ((([(('A', 'C'), 1), (('A', 'G'), 1)] : List ((Char × Char) × ℕ)).map
          Prod.snd).sum
        = (mkCoevolutionLogo [("a", ['A', 'C']), ("b", ['A', 'G'])]
            [(0, 1)] none [] 'X' 1 1).num_keys) := by
  constructor
  · exact c7_counter_sums.1
      (mkSequenceLogo [("a", ['A', 'C']), ("b", ['A', 'G'])]
        (some [0]) none [] 'X' 1 1) _ (by decide)
  · exact c7_counter_sums.2
      (mkCoevolutionLogo [("a", ['A', 'C']), ("b", ['A', 'G'])]
        [(0, 1)] none [] 'X' 1 1) _ (by decide)

/-- In `stack_column` the top `y1` is never updated between counter
entries: every glyph of a column carries the column's initial top. -/
lemma stack_column_y1_fixed (scheme : List (Char × String)) (K : ℕ)
    (x w : ℚ) :
    ∀ (cnt : List (Char × ℕ)) (y1 : ℚ),
      ∀ g ∈ stack_column scheme K x w y1 cnt, g.y1 = y1 := by
  intro cnt
  induction cnt with
  | nil =>
    intro y1 g hg
    simp [stack_column] at hg
  | cons p rest ih =>
    intro y1 g hg
    obtain ⟨c, n⟩ := p
    rw [stack_column] at hg
    rcases List.mem_cons.mp hg with hg | hg
    · rw [hg]
    · exact ih y1 g hg

/-- In `stack_column_pairs` the top `y1` is likewise never updated: every
glyph pair of a column carries the column's initial top. -/
lemma stack_column_pairs_y1_fixed (scheme : List (Char × String)) (K : ℕ)
    (spacing w : ℚ) (x : ℕ) :
    ∀ (cnt : List ((Char × Char) × ℕ)) (y1 : ℚ),
      ∀ pr ∈ stack_column_pairs scheme K spacing w x y1 cnt,
        pr.1.y1 = y1 ∧ pr.2.y1 = y1 := by
  intro cnt
  induction cnt with
  | nil =>
    intro y1 pr hpr
    simp [stack_column_pairs] at hpr
  | cons p rest ih =>
    intro y1 pr hpr
    obtain ⟨c, n⟩ := p
    rw [stack_column_pairs] at hpr
    rcases List.mem_cons.mp hpr with hpr | hpr
    · rw [hpr]
      exact ⟨rfl, rfl⟩
    · exact ih y1 pr hpr

/-- C1 (code bug): `make_patches` never reassigns `y1` inside the column
loop — `logo.py` lines 70–74 (and 149–156) recompute `y0 = y1 -
n / num_keys` with `y1` still `1` — so for the two-key alignment
`{"a": "A", "b": "C"}` the single column emits two glyphs both spanning
`[1/2, 1]`: the spans overlap, leave `[0, 1/2)` uncovered, and do not tile
`[0, 1]` as the claim (and the spec's `y1 = y0` update) state. -/
theorem c1_stack_overlap_code_bug :
    ((mkSequenceLogo [("a", ['A']), ("b", ['C'])] (some [0]) none
        [('A', "green"), ('C', "blue")] 'X' 1 1).column_glyph_lists.headD
          []).map Glyph.span
        = [(1/2, 1), (1/2, 1)] ∧
    ¬ TilesUnit [((1 : ℚ)/2, 1), (1/2, 1)] := by
  constructor
  · norm_num [mkSequenceLogo, SequenceLogo.resolve_keys,
      SequenceLogo.column_glyph_lists, SequenceLogo.get_counters,
      SequenceLogo.column_glyphs, SequenceLogo.symbolAt,
      SequenceLogo.num_keys, normSym, countElems, bump, most_common,
      insertByCount, stack_column, Glyph.span, List.lookup, List.enum,
      List.enumFrom]
  · intro h
    rw [TilesUnit] at h
    obtain ⟨_, h2, _⟩ := h
    simp at h2

/-- C8: a sequence logo over a single key produces, for every selected
position, exactly one glyph spanning `[0, 1]` whose character is that
position's normalised symbol and whose color is the scheme's entry for that
symbol (the lookup succeeding whenever the symbol appears in the scheme). -/
theorem c8_single_key_roundtrip (k : String) (seq : List Char)
    (scheme : List (Char × String)) (gap : Char) (spacing w : ℚ)
    (positions : List ℕ)
    (hsch : ∀ p ∈ positions,
      (scheme.lookup (normSym gap (seq.getD p '?'))).isSome) :
    (mkSequenceLogo [(k, seq)] (some positions) none scheme gap spacing
        w).column_glyph_lists
      = positions.enum.map (fun ip =>
          [{ character := normSym gap (seq.getD ip.2 '?'),
             x := spacing * (ip.1 : ℚ), y0 := 0, y1 := 1, width := w,
             color := scheme.lookup (normSym gap (seq.getD ip.2 '?')) }]) ∧
    ∀ gs ∈ (mkSequenceLogo [(k, seq)] (some positions) none scheme gap
        spacing w).column_glyph_lists, ∀ g ∈ gs,
      g.y0 = 0 ∧ g.y1 = 1 ∧ g.color.isSome := by
  have hsym : ∀ p : ℕ,
      (mkSequenceLogo [(k, seq)] (some positions) none scheme gap spacing
        w).symbolAt k p = seq.getD p '?' := by
    intro p
    rw [SequenceLogo.symbolAt]
    simp [mkSequenceLogo, SequenceLogo.resolve_keys, List.lookup]
  have hcnt : (mkSequenceLogo [(k, seq)] (some positions) none scheme gap
      spacing w).get_counters
      = positions.map (fun p => [(normSym gap (seq.getD p '?'), 1)]) := by
    rw [SequenceLogo.get_counters]
    apply List.map_congr_left
    intro p _
    show countElems [normSym gap
      ((mkSequenceLogo [(k, seq)] (some positions) none scheme gap spacing
        w).symbolAt k p)] = _
    rw [hsym p]
    rfl
  have hmain : (mkSequenceLogo [(k, seq)] (some positions) none scheme gap
      spacing w).column_glyph_lists
      = positions.enum.map (fun ip =>
          [{ character := normSym gap (seq.getD ip.2 '?'),
             x := spacing * (ip.1 : ℚ), y0 := 0, y1 := 1, width := w,
             color := scheme.lookup (normSym gap (seq.getD ip.2 '?')) }]) := by
    rw [SequenceLogo.column_glyph_lists, hcnt, List.enum_map, List.map_map]
    apply List.map_congr_left
    intro ip _
    show (mkSequenceLogo [(k, seq)] (some positions) none scheme gap spacing
      w).column_glyphs ip.1 [(normSym gap (seq.getD ip.2 '?'), 1)] = _
    rw [SequenceLogo.column_glyphs]
    show stack_column scheme 1 (spacing * (ip.1 : ℚ)) w 1
      [(normSym gap (seq.getD ip.2 '?'), 1)] = _
    simp only [stack_column, Glyph.mk.injEq, List.cons.injEq, and_true,
      true_and]
    norm_num
  refine ⟨hmain, ?_⟩
  intro gs hgs g hg
  rw [hmain] at hgs
  obtain ⟨ip, hip, rfl⟩ := List.mem_map.mp hgs
  rw [List.mem_singleton] at hg
  subst hg
  exact ⟨rfl, rfl, hsch ip.2 (snd_mem_enum _ _ hip)⟩

/-- C8 witness: one key `"a"` with sequence `"a-"` (a lowercase symbol and a
gap), positions `[0, 1]`, a scheme covering `A` and the gap character. -/
theorem c8_single_key_roundtrip_witness :
    (mkSequenceLogo [("a", ['a', '-'])] (some [0, 1]) none
        [('A', "green"), ('X', "black")] 'X' 1 1).column_glyph_lists
      = ([0, 1] : List ℕ).enum.map (fun ip =>
          [{ character := normSym 'X' ((['a', '-'] : List Char).getD ip.2 '?'),
             x := 1 * (ip.1 : ℚ), y0 := 0, y1 := 1, width := 1,
             color := ([('A', "green"), ('X', "black")] : List
               (Char × String)).lookup
                 (normSym 'X' ((['a', '-'] : List Char).getD ip.2 '?')) }]) ∧
    ∀ gs ∈ (mkSequenceLogo [("a", ['a', '-'])] (some [0, 1]) none
        [('A', "green"), ('X', "black")] 'X' 1 1).column_glyph_lists,
      ∀ g ∈ gs, g.y0 = 0 ∧ g.y1 = 1 ∧ g.color.isSome :=
  c8_single_key_roundtrip "a" ['a', '-'] [('A', "green"), ('X', "black")]
    'X' 1 1 [0, 1] (by decide)

/-! ### Color schemes (`colors.py`) -/

/-- `COLOR_SCHEME_AA` of `colors.py` after expanding the comma-separated
grouped keys into per-character entries. -/
def COLOR_SCHEME_AA : List (Char × String) :=
  [('A', "#94CD8C"), ('G', "#94CD8C"), ('C', "#B7D885"),
   ('D', "#6FB344"), ('E', "#6FB344"), ('N', "#6FB344"), ('Q', "#6FB344"),
   ('I', "#7FBBE6"), ('L', "#7FBBE6"), ('M', "#7FBBE6"), ('V', "#7FBBE6"),
   ('F', "#999FD0"), ('W', "#999FD0"), ('Y', "#999FD0"),
   ('H', "#5569B1"), ('K', "#F9CC89"), ('R', "#F9CC89"),
   ('P', "#E7BAB9"), ('S', "#ED5961"), ('T', "#ED5961"), ('X', "black")]

/-- The four-entry secondary-structure color scheme. -/
structure SSColorScheme where
  fc_helix : String
  fc_sheet : String
  fc_turn : String
  fc_coil : String
  deriving DecidableEq, Repr

/-- `COLOR_SCHEME_SS` of `colors.py`. -/
def COLOR_SCHEME_SS : SSColorScheme :=
  { fc_helix := "lightsteelblue", fc_sheet := "#999FD0",
    fc_turn := "#747274", fc_coil := "#747274" }

/-! ### Secondary structure (`secondary_structure.py`) -/

/-- The `ss_dict` normalisation (`secondary_structure.py` lines 34–37) with
the `.get(ss, 'C')` default used at line 90: raw labels map to the four
classes `H`, `E`, `T`, `C`, anything unknown to `C`. -/
def ss_norm (c : Char) : Char :=
  if c = 'H' ∨ c = 'G' ∨ c = 'I' then 'H'
  else if c = 'B' ∨ c = 'E' then 'E'
  else if c = 'T' ∨ c = 'S' then 'T'
  else 'C'

/-- One iteration of the `get_continuous_ss_blocks` loop (lines 89–96):
state is `(blocks, prev_ss, prev_i)`; the first iteration initialises
`prev_ss`; a class change closes the block `(prev_ss, prev_i, i - 1)` and
opens a new run at `i`. -/
def ssStep (st : List (Char × ℕ × ℕ) × Option Char × ℕ) (p : ℕ × Char) :
    List (Char × ℕ × ℕ) × Option Char × ℕ :=
  let ss := ss_norm p.2
  match st with
  | (blocks, none, prev_i) => (blocks, some ss, prev_i)
  | (blocks, some prev, prev_i) =>
    if ss ≠ prev then (blocks ++ [(prev, prev_i, p.1 - 1)], some ss, p.1)
    else (blocks, some prev, prev_i)

/-- `SecondaryStructure.get_continuous_ss_blocks` (lines 78–98): scan the
enumerated labels, then close the final run with the raw (un-normalised)
last label as its class. -/
def get_continuous_ss_blocks (labels : List Char) : List (Char × ℕ × ℕ) :=
  let st := labels.enum.foldl ssStep ([], none, 0)
  st.1 ++ [(labels.getLastD 'C', st.2.2, labels.length - 1)]

/-- Configuration of a `SecondaryStructure` (`__init__`, lines 8–76). -/
structure SecondaryStructure where
  ss_labels : List Char
  x : ℚ := 0
  y : ℚ := 0
  helix_as_wave : Bool := true
  width : ℚ := 2
  color_scheme : SSColorScheme := COLOR_SCHEME_SS

/-- `self.ss_blocks` (line 38). -/
def SecondaryStructure.ss_blocks (S : SecondaryStructure) :
    List (Char × ℕ × ℕ) :=
  get_continuous_ss_blocks S.ss_labels

def SecondaryStructure.edge_thickness (_ : SecondaryStructure) : ℚ := 1

def SecondaryStructure.helix_ellipse_length (S : SecondaryStructure) : ℚ :=
  S.width / 2

def SecondaryStructure.helix_ellipse_height (S : SecondaryStructure) : ℚ :=
  S.width - 1 / 1000

def SecondaryStructure.helix_rectangle_height (S : SecondaryStructure) : ℚ :=
  S.width

def SecondaryStructure.helix_arc_width (_ : SecondaryStructure) : ℚ := 2

def SecondaryStructure.helix_arc_height (S : SecondaryStructure) : ℚ :=
  S.width

def SecondaryStructure.helix_arc_length (_ : SecondaryStructure) : ℚ := 1 / 2

def SecondaryStructure.sheet_tail_height (S : SecondaryStructure) : ℚ :=
  S.width * (2 / 3)

def SecondaryStructure.sheet_head_height (S : SecondaryStructure) : ℚ :=
  S.width

def SecondaryStructure.turn_height (S : SecondaryStructure) : ℚ := S.width

def SecondaryStructure.coil_height (S : SecondaryStructure) : ℚ :=
  S.width * (8 / 10)

/-- Shape descriptors emitted for secondary-structure blocks, mirroring the
matplotlib patch constructors used in `secondary_structure.py`. -/
inductive SSPatch where
  | ellipse (center : ℚ × ℚ) (w h lw : ℚ) (edgecolor facecolor : String)
  | rectangle (origin : ℚ × ℚ) (w h : ℚ) (edgecolor facecolor : String)
  | arc (center : ℚ × ℚ) (w h lw theta1 theta2 : ℚ) (edgecolor : String)
  | fancyArrow (tail : ℚ × ℚ) (dx dy : ℚ) (head_length head_width
      tail_width : ℚ) (facecolor edgecolor : String) (lw : ℚ)
  | connection (p1 p2 : ℚ × ℚ) (edgecolor : String) (lw : ℚ)
  deriving DecidableEq, Repr

/-- `make_helix_ellipse` (lines 126–132). -/
def SecondaryStructure.make_helix_ellipse (S : SecondaryStructure)
    (origin : ℚ × ℚ) : SSPatch :=
  .ellipse origin S.helix_ellipse_length S.helix_ellipse_height
    S.edge_thickness "black" S.color_scheme.fc_helix

/-- `make_helix_rectangle` (lines 134–136). -/
def SecondaryStructure.make_helix_rectangle (S : SecondaryStructure)
    (length : ℚ) (origin : ℚ × ℚ) : SSPatch :=
  .rectangle origin length S.helix_rectangle_height "none"
    S.color_scheme.fc_helix

/-- `make_helix_arc` (lines 138–146): the angles are widened by one degree
on each side. -/
def SecondaryStructure.make_helix_arc (S : SecondaryStructure)
    (origin : ℚ × ℚ) (start_theta end_theta : ℚ) : SSPatch :=
  .arc origin S.helix_arc_length S.helix_arc_height S.helix_arc_width
    (start_theta - 1) (end_theta + 1) S.color_scheme.fc_helix

/-- `make_helix_wave` (lines 148–156): one arc per `np.arange(start, end+1,
0.5)` step — `2 * (end + 1 - start)` arcs at `arc_start = start + j/2` —
with the angle pair advancing by 180° per arc from `(0, 180)`. -/
def SecondaryStructure.make_helix_wave (S : SecondaryStructure)
    (start end_ : ℕ) : List SSPatch :=
  (List.range (2 * (end_ + 1 - start))).map fun j =>
    S.make_helix_arc
      ((start : ℚ) + (j : ℚ) / 2 + 1 / 4 + S.x, S.helix_arc_height / 2 + S.y)
      (0 + 180 * (j : ℚ)) (180 + 180 * (j : ℚ))

/-- `make_helix_cylinder` (lines 158–174). -/
def SecondaryStructure.make_helix_cylinder (S : SecondaryStructure)
    (start end_ : ℕ) : List SSPatch :=
  [S.make_helix_ellipse
      ((start : ℚ) + S.helix_ellipse_length / 2 + S.x,
       S.helix_ellipse_height / 2 + S.y),
   S.make_helix_rectangle
      ((end_ : ℚ) - (start : ℚ) + 1 - S.helix_ellipse_length)
      ((start : ℚ) + S.helix_ellipse_length / 2 + S.x, S.y),
   S.make_helix_ellipse
      ((end_ : ℚ) + 1 - S.helix_ellipse_length / 2 + S.x,
       S.helix_ellipse_height / 2 + S.y)]

/-- `make_helix` (lines 176–180). -/
def SecondaryStructure.make_helix (S : SecondaryStructure)
    (start end_ : ℕ) : List SSPatch :=
  if S.helix_as_wave then S.make_helix_wave start end_
  else S.make_helix_cylinder start end_

/-- `make_sheet_fancy_arrow` (lines 182–191). -/
def SecondaryStructure.make_sheet_fancy_arrow (S : SecondaryStructure)
    (start : ℚ) (length : ℚ) : SSPatch :=
  .fancyArrow ((start : ℚ) + S.x, S.width / 2 + S.y) length 0
    (length / 4) (S.sheet_head_height - 1 / 1000) S.sheet_tail_height
    S.color_scheme.fc_sheet "none" S.edge_thickness

/-- `make_sheet` (lines 193–195). -/
def SecondaryStructure.make_sheet (S : SecondaryStructure)
    (start end_ : ℕ) : SSPatch :=
  S.make_sheet_fancy_arrow (start : ℚ) ((end_ : ℚ) - (start : ℚ) + 1)

/-- `make_turn_arc` (lines 197–205). -/
def SecondaryStructure.make_turn_arc (S : SecondaryStructure)
    (origin : ℚ × ℚ) (length : ℚ) : SSPatch :=
  .arc origin length S.turn_height S.helix_arc_width 0 180
    S.color_scheme.fc_turn

/-- `make_turn` (lines 207–210). -/
def SecondaryStructure.make_turn (S : SecondaryStructure)
    (start end_ : ℕ) : SSPatch :=
  S.make_turn_arc
    ((start : ℚ) + ((end_ : ℚ) - (start : ℚ) + 1) / 2 + S.x,
     S.turn_height / 2 + S.y)
    ((end_ : ℚ) - (start : ℚ) + 1)

/-- `make_coil_connection` (lines 212–216). -/
def SecondaryStructure.make_coil_connection (S : SecondaryStructure)
    (origin : ℚ × ℚ) (length : ℚ) : SSPatch :=
  .connection origin (origin.1 + length, origin.2) S.color_scheme.fc_coil
    S.coil_height

/-- `make_coil` (lines 218–232): the start and length are trimmed according
to the class of the preceding block, then the length according to the class
of the following block. -/
def SecondaryStructure.make_coil (S : SecondaryStructure) (start end_ : ℕ)
    (prev_ss next_ss : Option Char) : SSPatch :=
  let length : ℚ := (end_ : ℚ) - (start : ℚ) + 1
  let startLen :=
    if prev_ss = some 'H' ∨ prev_ss = some 'T' then
      ((start : ℚ) - 4 / 72, length + 4 / 72)
    else if prev_ss = some 'E' then ((start : ℚ) - 1 / 2, length + 1 / 2)
    else ((start : ℚ), length)
  let length2 :=
    if next_ss = some 'H' ∨ next_ss = some 'T' then startLen.2 + 4 / 72
    else if next_ss = some 'E' then startLen.2 + 1 / 2
    else startLen.2
  S.make_coil_connection (startLen.1 + S.x, S.width / 2 + S.y) length2

/-- The patches emitted for block `i` of `make_patches` (lines 108–123):
dispatch on the block class; a coil looks up the neighbouring blocks'
classes; an unrecognised class emits nothing. -/
def SecondaryStructure.block_patches (S : SecondaryStructure) (i : ℕ)
    (b : Char × ℕ × ℕ) : List SSPatch :=
  if b.1 = 'H' then S.make_helix b.2.1 b.2.2
  else if b.1 = 'E' then [S.make_sheet b.2.1 b.2.2]
  else if b.1 = 'T' then [S.make_turn b.2.1 b.2.2]
  else if b.1 = 'C' then
    [S.make_coil b.2.1 b.2.2
      (if 0 < i then (S.ss_blocks[i - 1]?).map Prod.fst else none)
      ((S.ss_blocks[i + 1]?).map Prod.fst)]
  else []

/-- `SecondaryStructure.make_patches` (lines 100–124). -/
def SecondaryStructure.make_patches (S : SecondaryStructure) : List SSPatch :=
  (S.ss_blocks.enum.map fun ib => S.block_patches ib.1 ib.2).flatten

/-- Extension applied to a coil's start, as a function of the preceding
block class: `4/72` after a helix or turn, `1/2` after a sheet, nothing
otherwise. -/
def coil_start_extension (prev_ss : Option Char) : ℚ :=
  if prev_ss = some 'H' ∨ prev_ss = some 'T' then 4 / 72
  else if prev_ss = some 'E' then 1 / 2
  else 0

/-- Extension applied to a coil's end, as a function of the following
block class. -/
def coil_end_extension (next_ss : Option Char) : ℚ :=
  if next_ss = some 'H' ∨ next_ss = some 'T' then 4 / 72
  else if next_ss = some 'E' then 1 / 2
  else 0

/-- Helper: `make_coil` always yields the connector from
`start + x - startExtension` to `start + x + (end - start + 1) +
endExtension`: each end of the untrimmed span is extended independently,
based only on that end's neighbour class. -/
lemma make_coil_spec (S : SecondaryStructure) (start end_ : ℕ)
    (prev_ss next_ss : Option Char) :
    S.make_coil start end_ prev_ss next_ss
      = .connection
          ((start : ℚ) + S.x - coil_start_extension prev_ss,
           S.width / 2 + S.y)
          ((start : ℚ) + S.x + ((end_ : ℚ) - (start : ℚ) + 1)
             + coil_end_extension next_ss,
           S.width / 2 + S.y)
          S.color_scheme.fc_coil S.coil_height := by
  rw [SecondaryStructure.make_coil, SecondaryStructure.make_coil_connection,
    coil_start_extension, coil_end_extension]
  split_ifs <;>
    simp only [SSPatch.connection.injEq, Prod.mk.injEq, and_true, true_and] <;>
    refine ⟨by ring, by ring⟩

/-- C4: a coil block preceded by a sheet block and followed by a helix
block extends its start leftward by `0.5` and its end rightward by `4/72`
relative to the untrimmed span `[start, start + (end - start + 1)]`; in
general each end is trimmed independently from that end's neighbour only:
helix/turn neighbour `4/72`, sheet neighbour `0.5`, coil neighbour or
sequence boundary nothing. -/
theorem c4_coil_trimming :
    (∀ (S : SecondaryStructure) (start end_ : ℕ),
      S.make_coil start end_ (some 'E') (some 'H')
        = .connection
            ((start : ℚ) + S.x - 1 / 2, S.width / 2 + S.y)
            ((start : ℚ) + S.x + ((end_ : ℚ) - (start : ℚ) + 1) + 4 / 72,
             S.width / 2 + S.y)
            S.color_scheme.fc_coil S.coil_height) ∧
    (∀ (S : SecondaryStructure) (start end_ : ℕ)
        (prev_ss next_ss : Option Char),
      S.make_coil start end_ prev_ss next_ss
        = .connection
            ((start : ℚ) + S.x - coil_start_extension prev_ss,
             S.width / 2 + S.y)
            ((start : ℚ) + S.x + ((end_ : ℚ) - (start : ℚ) + 1)
               + coil_end_extension next_ss,
             S.width / 2 + S.y)
            S.color_scheme.fc_coil S.coil_height) := by
  constructor
  · intro S start end_
    rw [make_coil_spec]
    have h1 : coil_start_extension (some 'E') = 1 / 2 := by
      simp [coil_start_extension]
    have h2 : coil_end_extension (some 'H') = 4 / 72 := by
      simp [coil_end_extension]
    rw [h1, h2]
  · intro S start end_ prev_ss next_ss
    exact make_coil_spec S start end_ prev_ss next_ss

/-! ### Run segmentation lemmas (claims C3, C6) -/

/-- Recursive restatement of the scan loop of `get_continuous_ss_blocks`:
from current run class `c` started at `pi`, processing labels from index
`m`, return the completed blocks, the final current class and the final
run start. -/
def runsFrom (c : Char) (pi m : ℕ) : List Char → List (Char × ℕ × ℕ) × Char × ℕ
  | [] => ([], c, pi)
  | a :: rest =>
    if ss_norm a ≠ c then
      ((c, pi, m - 1) :: (runsFrom (ss_norm a) m (m + 1) rest).1,
       (runsFrom (ss_norm a) m (m + 1) rest).2)
    else runsFrom c pi (m + 1) rest

/-- The loop fold equals `runsFrom` once the first label has initialised
the state. -/
lemma foldl_ssStep_eq :
    ∀ (rest : List Char) (m : ℕ) (blocks : List (Char × ℕ × ℕ)) (c : Char)
      (pi : ℕ),
      (List.enumFrom m rest).foldl ssStep (blocks, some c, pi)
        = (blocks ++ (runsFrom c pi m rest).1,
           some (runsFrom c pi m rest).2.1,
           (runsFrom c pi m rest).2.2) := by
  intro rest
  induction rest with
  | nil =>
    intro m blocks c pi
    simp [runsFrom, List.enumFrom]
  | cons a t ih =>
    intro m blocks c pi
    rw [List.enumFrom_cons, List.foldl_cons]
    by_cases h : ss_norm a ≠ c
    · have hstep : ssStep (blocks, some c, pi) (m, a)
          = (blocks ++ [(c, pi, m - 1)], some (ss_norm a), m) := by
        simp [ssStep, h]
      rw [hstep, ih]
      have hruns : runsFrom c pi m (a :: t)
          = ((c, pi, m - 1) :: (runsFrom (ss_norm a) m (m + 1) t).1,
             (runsFrom (ss_norm a) m (m + 1) t).2) := by
        rw [runsFrom, if_pos h]
      rw [hruns]
      simp
    · have hc : ss_norm a = c := not_ne_iff.mp h
      have hstep : ssStep (blocks, some c, pi) (m, a)
          = (blocks, some c, pi) := by
        simp [ssStep, h]
      rw [hstep, ih]
      have hruns : runsFrom c pi m (a :: t) = runsFrom c pi (m + 1) t := by
        rw [runsFrom, if_neg h]
      rw [hruns]

/-- The blocks `bs` start at `pi`, are consecutively adjacent, and the
final run start `fpi` is one past the last block's end (`pi` itself when
there is no block). -/
def AdjFrom (pi : ℕ) : List (Char × ℕ × ℕ) → ℕ → Prop
  | [], fpi => fpi = pi
  | b :: bs, fpi => b.2.1 = pi ∧ AdjFrom (b.2.2 + 1) bs fpi

lemma adjFrom_chain (x : Char) (e : ℕ) :
    ∀ (bs : List (Char × ℕ × ℕ)) (pi fpi : ℕ), AdjFrom pi bs fpi →
      List.Chain' (fun b b' : Char × ℕ × ℕ => b'.2.1 = b.2.2 + 1)
        (bs ++ [(x, fpi, e)]) := by
  intro bs
  induction bs with
  | nil =>
    intro pi fpi _
    simp
  | cons b t ih =>
    intro pi fpi h
    obtain ⟨_, ht⟩ := h
    rw [List.cons_append, List.chain'_cons']
    refine ⟨?_, ih _ _ ht⟩
    intro y hy
    cases t with
    | nil =>
      simp at hy
      rw [← hy]
      exact ht
    | cons b2 t2 =>
      simp at hy
      obtain ⟨h1, _⟩ := ht
      rw [← hy]
      exact h1

/-- Soundness of `runsFrom` relative to the full label list `L`: every
completed block is a constant-class run that the next index breaks, the
blocks tile `[pi, fpi)` consecutively, and the final run start stays in
range. -/
lemma runsFrom_sound (L : List Char) :
    ∀ (rest : List Char) (m : ℕ) (c : Char) (pi : ℕ),
      rest = L.drop m → pi < m →
      (∀ i, pi ≤ i → i < m → ss_norm (L.getD i 'C') = c) →
      (∀ b ∈ (runsFrom c pi m rest).1,
        (∀ i, b.2.1 ≤ i → i ≤ b.2.2 → ss_norm (L.getD i 'C') = b.1) ∧
        b.2.2 + 1 < L.length ∧
        ss_norm (L.getD (b.2.2 + 1) 'C') ≠ b.1) ∧
      AdjFrom pi (runsFrom c pi m rest).1 (runsFrom c pi m rest).2.2 ∧
      (runsFrom c pi m rest).2.2 < m + rest.length := by
  intro rest
  induction rest with
  | nil =>
    intro m c pi _ hpi _
    refine ⟨?_, ?_, ?_⟩
    · intro b hb
      simp [runsFrom] at hb
    · rw [runsFrom]
      rfl
    · rw [runsFrom]
      simpa using hpi
  | cons a t ih =>
    intro m c pi hdrop hpi hconst
    have hmlen : m < L.length := by
      by_contra hge
      have hnil : L.drop m = [] := List.drop_eq_nil_iff.mpr (by omega)
      rw [hnil] at hdrop
      exact List.cons_ne_nil a t hdrop
    have hgetm : L.getD m 'C' = a := by
      have h1 : L[m]? = some a := by
        rw [← List.head?_drop, ← hdrop]
        rfl
      rw [List.getD_eq_getElem?_getD, h1]
      rfl
    have hdrop' : t = L.drop (m + 1) := by
      rw [← List.tail_drop, ← hdrop]
      rfl
    by_cases h : ss_norm a ≠ c
    · have hruns : runsFrom c pi m (a :: t)
          = ((c, pi, m - 1) :: (runsFrom (ss_norm a) m (m + 1) t).1,
             (runsFrom (ss_norm a) m (m + 1) t).2) := by
        rw [runsFrom, if_pos h]
      have hconst' : ∀ i, m ≤ i → i < m + 1 →
          ss_norm (L.getD i 'C') = ss_norm a := by
        intro i h0 h1
        have hi : i = m := by omega
        rw [hi, hgetm]
      have hrec := ih (m + 1) (ss_norm a) m hdrop' (by omega) hconst'
      obtain ⟨hblocks, hadj, hlt⟩ := hrec
      rw [hruns]
      refine ⟨?_, ?_, ?_⟩
      · intro b hb
        rcases List.mem_cons.mp hb with hb | hb
        · rw [hb]
          dsimp only
          refine ⟨?_, ?_, ?_⟩
          · intro i h0 h1
            exact hconst i h0 (by omega)
          · omega
          · have hm1 : m - 1 + 1 = m := by omega
            rw [hm1, hgetm]
            exact h
        · exact hblocks b hb
      · dsimp only
        simp only [AdjFrom, true_and]
        have hm1 : m - 1 + 1 = m := by omega
        rw [hm1]
        exact hadj
      · show (runsFrom (ss_norm a) m (m + 1) t).2.2 < m + (a :: t).length
        simp only [List.length_cons]
        omega
    · have hc : ss_norm a = c := not_ne_iff.mp h
      have hruns : runsFrom c pi m (a :: t) = runsFrom c pi (m + 1) t := by
        rw [runsFrom, if_neg h]
      have hconst' : ∀ i, pi ≤ i → i < m + 1 →
          ss_norm (L.getD i 'C') = c := by
        intro i h0 h1
        by_cases hi : i < m
        · exact hconst i h0 hi
        · have him : i = m := by omega
          rw [him, hgetm]
          exact hc
      have hrec := ih (m + 1) c pi hdrop' (by omega) hconst'
      obtain ⟨hblocks, hadj, hlt⟩ := hrec
      rw [hruns]
      refine ⟨hblocks, hadj, ?_⟩
      simp only [List.length_cons]
      omega

/-- `get_continuous_ss_blocks` in terms of `runsFrom`: the completed runs
followed by the final block, whose class is the raw last label. -/
lemma get_continuous_ss_blocks_eq (a : Char) (rest : List Char) :
    get_continuous_ss_blocks (a :: rest)
      = (runsFrom (ss_norm a) 0 1 rest).1
        ++ [((a :: rest).getLastD 'C', (runsFrom (ss_norm a) 0 1 rest).2.2,
             (a :: rest).length - 1)] := by
  simp only [get_continuous_ss_blocks]
  rw [List.enum_cons, List.foldl_cons]
  have h : ssStep ([], none, 0) (0, a) = ([], some (ss_norm a), 0) := rfl
  rw [h, foldl_ssStep_eq]
  simp

/-- C3: `get_continuous_ss_blocks` segments the labels into maximal
same-class runs `(class, start, end_inclusive)`: the input `"HHHTTTEEE"`
yields exactly `(H,0,2), (T,3,5), (E,6,8)`; in general the blocks start at
`0`, end at `length - 1`, each block starts right after the previous one
ends (a class change at `i` closes the current run at `i - 1` and opens a
new run at `i`), and every non-final block is a constant-class run of the
normalised labels that the next index breaks. -/
theorem c3_segmentation :
    (get_continuous_ss_blocks ['H', 'H', 'H', 'T', 'T', 'T', 'E', 'E', 'E']
        = [('H', 0, 2), ('T', 3, 5), ('E', 6, 8)]) ∧
    (∀ labels : List Char, labels ≠ [] →
      (get_continuous_ss_blocks labels).head?.map (fun b => b.2.1)
          = some 0 ∧
      (get_continuous_ss_blocks labels).getLast?.map (fun b => b.2.2)
          = some (labels.length - 1) ∧
      List.Chain' (fun b b' => b'.2.1 = b.2.2 + 1)
        (get_continuous_ss_blocks labels) ∧
      (∀ b ∈ (get_continuous_ss_blocks labels).dropLast,
        (∀ i, b.2.1 ≤ i → i ≤ b.2.2 → ss_norm (labels.getD i 'C') = b.1) ∧
        b.2.2 + 1 < labels.length ∧
        ss_norm (labels.getD (b.2.2 + 1) 'C') ≠ b.1)) := by
  constructor
  · decide
  · intro labels hne
    obtain ⟨a, rest, rfl⟩ := List.exists_cons_of_ne_nil hne
    have hconst0 : ∀ i, 0 ≤ i → i < 1 →
        ss_norm ((a :: rest).getD i 'C') = ss_norm a := by
      intro i _ h1
      have hi : i = 0 := by omega
      rw [hi, List.getD_cons_zero]
    have hs := runsFrom_sound (a :: rest) rest 1 (ss_norm a) 0
      (by simp) (by omega) hconst0
    obtain ⟨hblocks, hadj, _⟩ := hs
    rw [get_continuous_ss_blocks_eq]
    refine ⟨?_, ?_, ?_, ?_⟩
    · cases hr : (runsFrom (ss_norm a) 0 1 rest).1 with
      | nil =>
        rw [hr] at hadj
        simp only [AdjFrom] at hadj
        simp [hadj]
      | cons b t =>
        rw [hr] at hadj
        simp only [AdjFrom] at hadj
        simp [hadj.1]
    · simp [List.getLast?_concat]
    · exact adjFrom_chain _ _ _ 0 _ hadj
    · intro b hb
      rw [List.dropLast_concat] at hb
      exact hblocks b hb

/-- C3 witness: the general segmentation facts at the concrete input
`['H', 'T']`. -/
theorem c3_segmentation_witness :
    (get_continuous_ss_blocks ['H', 'T']).head?.map (fun b => b.2.1)
        = some 0 ∧
    (get_continuous_ss_blocks ['H', 'T']).getLast?.map (fun b => b.2.2)
        = some ((['H', 'T'] : List Char).length - 1) ∧
    List.Chain' (fun b b' => b'.2.1 = b.2.2 + 1)
      (get_continuous_ss_blocks ['H', 'T']) ∧
    (∀ b ∈ (get_continuous_ss_blocks ['H', 'T']).dropLast,
      (∀ i, b.2.1 ≤ i → i ≤ b.2.2 →
        ss_norm ((['H', 'T'] : List Char).getD i 'C') = b.1) ∧
      b.2.2 + 1 < (['H', 'T'] : List Char).length ∧
      ss_norm ((['H', 'T'] : List Char).getD (b.2.2 + 1) 'C') ≠ b.1) :=
  c3_segmentation.2 ['H', 'T'] (by decide)

/-- C6: for a non-empty label sequence whose raw last label is outside
`{H, E, T, C}`, the final block carries that raw, un-normalised label as
its class, `block_patches` matches none of its class branches on it, and
`make_patches` equals the output over all blocks except the final one —
the trailing run is silently absent. -/
theorem c6_raw_trailing_label (S : SecondaryStructure)
    (hne : S.ss_labels ≠ [])
    (hlast : S.ss_labels.getLastD 'C' ∉ (['H', 'E', 'T', 'C'] : List Char)) :
    S.ss_blocks.getLast?.map (fun b => b.1)
        = some (S.ss_labels.getLastD 'C') ∧
    (∀ b ∈ S.ss_blocks.getLast?,
      S.block_patches (S.ss_blocks.length - 1) b = []) ∧
    S.make_patches
      = (S.ss_blocks.dropLast.enum.map fun ib =>
          S.block_patches ib.1 ib.2).flatten := by
  simp only [List.mem_cons, List.not_mem_nil, or_false, not_or] at hlast
  obtain ⟨hH, hE, hT, hC⟩ := hlast
  have hb : S.ss_blocks
      = (S.ss_labels.enum.foldl ssStep ([], none, 0)).1
        ++ [(S.ss_labels.getLastD 'C',
             (S.ss_labels.enum.foldl ssStep ([], none, 0)).2.2,
             S.ss_labels.length - 1)] := rfl
  have hpatches : ∀ i, S.block_patches i
      (S.ss_labels.getLastD 'C',
       (S.ss_labels.enum.foldl ssStep ([], none, 0)).2.2,
       S.ss_labels.length - 1) = [] := by
    intro i
    rw [SecondaryStructure.block_patches]
    dsimp only
    rw [if_neg hH, if_neg hE, if_neg hT, if_neg hC]
  refine ⟨?_, ?_, ?_⟩
  · rw [hb, List.getLast?_concat]
    rfl
  · intro b hbmem
    rw [hb, List.getLast?_concat, Option.mem_def, Option.some.injEq] at hbmem
    rw [← hbmem]
    exact hpatches _
  · have henum : List.enumFrom
        ((S.ss_labels.enum.foldl ssStep ([], none, 0)).1.length)
        [(S.ss_labels.getLastD 'C',
          (S.ss_labels.enum.foldl ssStep ([], none, 0)).2.2,
          S.ss_labels.length - 1)]
        = [(((S.ss_labels.enum.foldl ssStep ([], none, 0)).1.length),
            (S.ss_labels.getLastD 'C',
             (S.ss_labels.enum.foldl ssStep ([], none, 0)).2.2,
             S.ss_labels.length - 1))] := rfl
    rw [SecondaryStructure.make_patches, hb, List.enum_append,
      List.map_append, List.flatten_append, List.dropLast_concat, henum]
    rw [List.map_cons, List.map_nil, hpatches]
    simp

/-- C6 witness: labels `['H', 'G']` — the trailing `'G'` normalises to
helix during the scan, but the final block stores the raw `'G'` and no
patch is emitted for it. -/
theorem c6_raw_trailing_label_witness :
    ({ ss_labels := ['H', 'G'] } : SecondaryStructure).ss_blocks.getLast?.map
        (fun b => b.1) = some ((['H', 'G'] : List Char).getLastD 'C') ∧
    (∀ b ∈ ({ ss_labels := ['H', 'G'] } :
        SecondaryStructure).ss_blocks.getLast?,
      ({ ss_labels := ['H', 'G'] } : SecondaryStructure).block_patches
        (({ ss_labels := ['H', 'G'] } :
          SecondaryStructure).ss_blocks.length - 1) b = []) ∧
    ({ ss_labels := ['H', 'G'] } : SecondaryStructure).make_patches
      = (({ ss_labels := ['H', 'G'] } :
          SecondaryStructure).ss_blocks.dropLast.enum.map fun ib =>
            ({ ss_labels := ['H', 'G'] } :
              SecondaryStructure).block_patches ib.1 ib.2).flatten :=
  c6_raw_trailing_label { ss_labels := ['H', 'G'] } (by decide) (by decide)
